import Mathlib

/-!
Verification of the chartered Git-over-SSH serving core.

Byte strings are modelled as `List Nat` (each element a byte value).
The pkt-line decoder is translated from `src/git/codec.rs`
(`GitCodec::decode`); the pkt-line encoder, the Git object model and
its hashing are modelled from the specification because their source
(`chartered-git/src/git/{mod,packfile}.rs`) is not part of the sources
under review.  The SSH handler logic (`exec_request`, `auth_*`, `data`,
`fetch_tree`, `build_tree`) is translated from
`chartered-git/src/main.rs`.
-/

namespace Chartered

/-- ASCII bytes of a Lean string literal (all literals used here are ASCII,
so `Char.toNat` agrees with UTF-8 bytes). -/
def strBytes (s : String) : List Nat :=
  s.data.map Char.toNat

/-- Numeric value of an ASCII hex digit, as accepted by Rust
`u16::from_str_radix(_, 16)` (digits `0-9`, `a-f`, `A-F`). -/
def hexDigitVal (b : Nat) : Option Nat :=
  if 48 ≤ b ∧ b ≤ 57 then some (b - 48)
  else if 97 ≤ b ∧ b ≤ 102 then some (b - 87)
  else if 65 ≤ b ∧ b ≤ 70 then some (b - 55)
  else none

/-- Parse the 4-byte ASCII-hex pkt-line length prefix
(`u16::from_str_radix(str::from_utf8(&src[..4])?, 16)?` in
`src/git/codec.rs`). -/
def parseHex4 (bs : List Nat) : Option Nat :=
  match bs with
  | [b3, b2, b1, b0] => do
    let d3 ← hexDigitVal b3
    let d2 ← hexDigitVal b2
    let d1 ← hexDigitVal b1
    let d0 ← hexDigitVal b0
    pure (((d3 * 16 + d2) * 16 + d1) * 16 + d0)
  | _ => none

/-- Lowercase ASCII hex digit for a value `< 16`. -/
def toHexDigit (n : Nat) : Nat :=
  if n < 10 then 48 + n else 87 + n

/-- Four lowercase ASCII hex digits of `n < 65536` (the pkt-line length
field format `{:04x}`). -/
def encodeHex4 (n : Nat) : List Nat :=
  [toHexDigit (n / 4096 % 16), toHexDigit (n / 256 % 16),
   toHexDigit (n / 16 % 16), toHexDigit (n % 16)]

/-- Translation of `GitCodec::decode` from `src/git/codec.rs`, as a pure function from
the input buffer to (decoded frame, remaining buffer).  `Except` models
the `anyhow::Error` returns, `none` models `Ok(None)` (need more data).
Control lengths 0/1/2 consume four bytes and recurse; lengths outside
`4..=65520` are "protocol abuse"; otherwise the 4 header bytes are
discarded and a single trailing `\n` (byte 10) is stripped. -/
def gitDecode (src : List Nat) : Except String (Option (List Nat) × List Nat) :=
  if _h4 : src.length < 4 then
    .ok (none, src)
  else
    match parseHex4 (src.take 4) with
    | none => .error "invalid length prefix"
    | some length =>
      if length = 0 ∨ length = 1 ∨ length = 2 then
        gitDecode (src.drop 4)
      else if length < 4 ∨ 65520 < length then
        .error "protocol abuse"
      else if src.length < length then
        .ok (none, src)
      else
        let bytes := (src.take length).drop 4
        let bytes := if bytes.getLast? = some 10 then bytes.dropLast else bytes
        .ok (some bytes, src.drop length)
termination_by src.length
decreasing_by
  simp only [List.length_drop]
  omega

/-- Modelled from the spec (§4.1 Encode): a data pkt-line is four hex
digits of `len(payload) + 4` followed by the payload verbatim. -/
def encodeData (payload : List Nat) : List Nat :=
  encodeHex4 (payload.length + 4) ++ payload

/-- Modelled from the spec (§4.1 Encode): the flush pkt is the literal
`0000`. -/
def encodeFlush : List Nat := strBytes "0000"

/-- Modelled from the spec (§4.1 Encode): the delimiter pkt is the
literal `0001`. -/
def encodeDelim : List Nat := strBytes "0001"

/-- Modelled from the spec (§4.1 Encode): the response-end pkt is the
literal `0002`. -/
def encodeRespEnd : List Nat := strBytes "0002"

/-- Strict lexicographic byte order, the order Rust's `Ord` gives
`[u8; 2]` keys and `String` keys of the `BTreeMap`s in `fetch_tree`. -/
def bytesLt : List Nat → List Nat → Bool
  | _, [] => false
  | [], _ :: _ => true
  | a :: as, b :: bs => a < b || (a = b && bytesLt as bs)

/-- A calendar timestamp (the model keeps the six fields of
`chrono::Utc.ymd(..).and_hms(..)`; no clock is consulted anywhere). -/
structure Timepoint where
  year : Nat
  month : Nat
  day : Nat
  hour : Nat
  minute : Nat
  second : Nat
deriving DecidableEq, Repr

/-- Modelled from the spec (§3 GitObject): a tree item's kind,
`TreeItemKind` in `git/packfile.rs` (not under the sources reviewed). -/
inductive TreeItemKind where
  | file
  | directory
deriving DecidableEq, Repr

/-- Modelled from the spec (§3 GitObject): a tree entry carrying a name,
a kind and the hash of the referenced object (`TreeItem` in
`git/packfile.rs`). -/
structure TreeItem where
  kind : TreeItemKind
  name : List Nat
  hash : List Nat
deriving DecidableEq, Repr

/-- Modelled from the spec (§3 GitObject): commit author/committer
identity (`CommitUserInfo` in `git/packfile.rs`). -/
structure CommitUserInfo where
  name : List Nat
  email : List Nat
  time : Timepoint
deriving DecidableEq, Repr

/-- Modelled from the spec (§3 GitObject): a parentless commit
referencing a tree hash (`Commit` in `git/packfile.rs`). -/
structure Commit where
  tree : List Nat
  author : CommitUserInfo
  committer : CommitUserInfo
  message : List Nat
deriving DecidableEq, Repr

/-- Modelled from the spec (§3 GitObject): a packfile entry is a blob,
a tree or a commit (`PackFileEntry` in `git/packfile.rs`). -/
inductive PackFileEntry where
  | blob (content : List Nat)
  | tree (items : List TreeItem)
  | commit (c : Commit)
deriving DecidableEq, Repr

/-- Lowercase hex encoding of a byte string (`hex::encode`). -/
def hexBytes (l : List Nat) : List Nat :=
  l.flatMap fun b => [toHexDigit (b / 16 % 16), toHexDigit (b % 16)]

/-- Decimal digits of a timestamp's fields, used in the commit body
stand-in below; deterministic and injective on `Timepoint`. -/
def Timepoint.bytes (t : Timepoint) : List Nat :=
  strBytes (toString t.year) ++ strBytes "-" ++ strBytes (toString t.month) ++
    strBytes "-" ++ strBytes (toString t.day) ++ strBytes " " ++
    strBytes (toString t.hour) ++ strBytes ":" ++ strBytes (toString t.minute) ++
    strBytes ":" ++ strBytes (toString t.second)

/-- Modelled from the spec (§3): mode string of a tree item, `100644`
for a file and `40000` for a directory. -/
def TreeItemKind.mode : TreeItemKind → List Nat
  | .file => strBytes "100644"
  | .directory => strBytes "40000"

/-- Modelled from the spec (§3): canonical body of a Git object.  A tree
serialises its items as `"<mode> <name>\0<hash>"`; a commit serialises
tree hash, author, committer and message. -/
def PackFileEntry.body : PackFileEntry → List Nat
  | .blob content => content
  | .tree items =>
    items.flatMap fun i => i.kind.mode ++ strBytes " " ++ i.name ++ [0] ++ i.hash
  | .commit c =>
    strBytes "tree " ++ hexBytes c.tree ++ strBytes "\nauthor " ++
      c.author.name ++ strBytes " <" ++ c.author.email ++ strBytes "> " ++
      c.author.time.bytes ++ strBytes "\ncommitter " ++ c.committer.name ++
      strBytes " <" ++ c.committer.email ++ strBytes "> " ++
      c.committer.time.bytes ++ strBytes "\n\n" ++ c.message

/-- Modelled from the spec (§3): the object type name. -/
def PackFileEntry.typeName : PackFileEntry → List Nat
  | .blob _ => strBytes "blob"
  | .tree _ => strBytes "tree"
  | .commit _ => strBytes "commit"

/-- Modelled from the spec (§3/§4.2): `hash()` is SHA-1 over
`"<type> <len>\0<body>"`.  The model keeps the SHA-1 *preimage* itself
as the hash value: it is deterministic and (unlike real SHA-1,
collisions aside) injective, and no claim inspects digest bytes. -/
def PackFileEntry.hash (e : PackFileEntry) : List Nat :=
  e.typeName ++ strBytes " " ++ strBytes (toString e.body.length) ++ [0] ++ e.body

/-- Leaf map of `fetch_tree`: `BTreeMap<String, String>` from crate name
to the rendered versions file, as a sorted association list. -/
abbrev LeafMap := List (List Nat × List Nat)

/-- Inner map of `fetch_tree`: `TwoCharTree<BTreeMap<String, String>>`. -/
abbrev InnerMap := List (List Nat × LeafMap)

/-- Outer map of `fetch_tree`:
`TwoCharTree<TwoCharTree<BTreeMap<String, String>>>`. -/
abbrev OuterTree := List (List Nat × InnerMap)

/-- The `BTreeMap` update on a sorted association list: the value at `k` is
replaced by `f` of the old value, inserting `f dflt` when absent (the
`entry(k).or_default()` / `insert` patterns of `fetch_tree`). -/
def mapUpdate {V : Type} (k : List Nat) (f : V → V) (dflt : V) :
    List (List Nat × V) → List (List Nat × V)
  | [] => [(k, f dflt)]
  | (k', v') :: rest =>
    if bytesLt k k' then (k, f dflt) :: (k', v') :: rest
    else if k = k' then (k', f v') :: rest
    else (k', v') :: mapUpdate k f dflt rest

/-- Translation of `fetch_tree` from `chartered-git/src/main.rs`, with the database
listing abstracted to `(crate name bytes, rendered versions file)`
pairs (the per-version JSON rendering is external `serde_json` code).
Per crate it reads bytes `name[0..2]` and `name[2..4]` via
`Iterator::next().unwrap()`; a name shorter than 4 bytes hits `unwrap`
on `None`, modelled as `none`. -/
def fetch_tree : List (List Nat × List Nat) → OuterTree → Option OuterTree
  | [], acc => some acc
  | (name, file) :: rest, acc =>
    match name with
    | b0 :: b1 :: b2 :: b3 :: _ =>
      fetch_tree rest
        (mapUpdate [b0, b1]
          (mapUpdate [b2, b3] (mapUpdate name (fun _ => file) file) [])
          [] acc)
    | _ => none

/-- Inner loop of `build_tree` over one second-level directory's crates:
pushes each crate's blob into the entry list and a file item into the
second-level tree. -/
def buildCrates : LeafMap → List TreeItem × List PackFileEntry
  | [] => ([], [])
  | (name, file) :: rest =>
    (⟨.file, name, (PackFileEntry.blob file).hash⟩ :: (buildCrates rest).1,
     PackFileEntry.blob file :: (buildCrates rest).2)

/-- Middle loop of `build_tree` over the second-level directories of one
first-level directory: after each group's blobs it pushes the
second-level tree and records a directory item for it. -/
def buildSeconds : InnerMap → List TreeItem × List PackFileEntry
  | [] => ([], [])
  | (dir, crates) :: rest =>
    (⟨.directory, dir, (PackFileEntry.tree (buildCrates crates).1).hash⟩ ::
       (buildSeconds rest).1,
     (buildCrates crates).2 ++
       PackFileEntry.tree (buildCrates crates).1 :: (buildSeconds rest).2)

/-- Translation of `build_tree` from `chartered-git/src/main.rs`: returns the items it
appends to `root_tree` and the entries it appends to
`pack_file_entries`, in push order. -/
def build_tree : OuterTree → List TreeItem × List PackFileEntry
  | [] => ([], [])
  | (dir, seconds) :: rest =>
    (⟨.directory, dir, (PackFileEntry.tree (buildSeconds seconds).1).hash⟩ ::
       (build_tree rest).1,
     (buildSeconds seconds).2 ++
       PackFileEntry.tree (buildSeconds seconds).1 :: (build_tree rest).2)

/-- The `config.json` contents formatted in `Handler::data`
(`main.rs` lines 282-291), for a given session key and organisation. -/
def mkConfig (key org : List Nat) : List Nat :=
  strBytes "\x7b\"dl\":\"http://127.0.0.1:8888/a/" ++ key ++ strBytes "/o/" ++
    org ++ strBytes "/api/v1/crates\",\"api\":\"http://127.0.0.1:8888/a/" ++
    key ++ strBytes "/o/" ++ org ++ strBytes "\"\x7d"

/-- The constant commit author/committer of `Handler::data`
(`main.rs` lines 315-319): a fixed identity and the fixed timestamp
`Utc.ymd(2021, 9, 8).and_hms(17, 46, 1)`; no clock is read. -/
def commitUserInfo : CommitUserInfo :=
  ⟨strBytes "Jordan Doyle", strBytes "jordan@doyle.la", ⟨2021, 9, 8, 17, 46, 1⟩⟩

/-- The root tree assembled in `Handler::data`: the `config.json` item
pushed first (lines 294-298), then everything `build_tree` appends. -/
def rootItemsFor (cfg : List Nat) (t : OuterTree) : List TreeItem :=
  ⟨.file, strBytes "config.json", (PackFileEntry.blob cfg).hash⟩ :: (build_tree t).1

/-- The root tree entry of `Handler::data` (line 311). -/
def rootTreeFor (cfg : List Nat) (t : OuterTree) : PackFileEntry :=
  .tree (rootItemsFor cfg t)

/-- The commit entry of `Handler::data` (lines 320-325): references the
root tree hash, constant author/committer/message. -/
def commitEntryFor (cfg : List Nat) (t : OuterTree) : PackFileEntry :=
  .commit ⟨(rootTreeFor cfg t).hash, commitUserInfo, commitUserInfo,
    strBytes "Most recent crates"⟩

/-- The full `pack_file_entries` list built by `Handler::data` (lines
278-327): `config.json` blob, the `build_tree` entries, the root tree,
the commit, in push order. -/
def makeEntries (cfg : List Nat) (t : OuterTree) : List PackFileEntry :=
  PackFileEntry.blob cfg :: (build_tree t).2 ++
    [rootTreeFor cfg t, commitEntryFor cfg t]

/-- Modelled from the spec (§4.5): a decoded protocol-v2 command frame
as consumed by `Handler::data` (`frame.command` / `frame.metadata`);
the command codec producing it is not under the sources reviewed.  A
client flush with no pending command surfaces as an empty `command`. -/
structure Frame where
  command : List Nat
  metadata : List (List Nat)
deriving DecidableEq, Repr

/-- Observable actions of `Handler::data` on its SSH channel: pkt-lines
written to the output buffer (`pkt`/`delim`/`flushPkt`/`sidebandMsg`/
`sidebandData`), buffer flushes into a channel data message
(`chanFlush`), and session control calls. -/
inductive Event where
  | pkt (payload : List Nat)
  | delim
  | flushPkt
  | sidebandMsg (payload : List Nat)
  | sidebandData (entries : List PackFileEntry)
  | chanFlush
  | exitStatus (code : Nat)
  | eof
  | close
deriving DecidableEq, Repr

/-- The frame loop of `Handler::data` (lines 249-270): returns `none`
when a frame with an empty command is hit (early exit), otherwise the
final `(ls_refs, fetch, done)` flags. -/
def scanFrames : List Frame → Bool → Bool → Bool → Option (Bool × Bool × Bool)
  | [], lsRefs, fetch, d => some (lsRefs, fetch, d)
  | f :: rest, lsRefs, fetch, d =>
    if f.command = [] then none
    else if f.command = strBytes "command=ls-refs" then
      scanFrames rest true fetch d
    else if f.command = strBytes "command=fetch" then
      if (f.metadata.contains (strBytes "done")) = true then
        scanFrames rest lsRefs fetch true
      else
        scanFrames rest lsRefs true d
    else
      scanFrames rest lsRefs fetch d

/-- Translation of `Handler::data` from `chartered-git/src/main.rs` (lines 241-373) as
a function from the decoded frames to the emitted event sequence.
`cfg` is the formatted `config.json` contents and `t` the fetched index
tree (both computed before the flag checks in the source).  The `_now`
argument stands for the wall-clock time of the request; the source
never reads a clock, so it is unused. -/
def data (_now : Timepoint) (frames : List Frame) (cfg : List Nat)
    (t : OuterTree) : List Event :=
  match scanFrames frames false false false with
  | none => [.exitStatus 0, .eof, .close]
  | some (lsRefs, fetch, d) =>
    if lsRefs = false ∧ fetch = false ∧ d = false then []
    else
      (if lsRefs then
        [.pkt (hexBytes (commitEntryFor cfg t).hash ++
          strBytes " HEAD symref-target:refs/heads/master\n"),
         .flushPkt, .chanFlush]
      else []) ++
      (if fetch then
        [.pkt (strBytes "acknowledgments\n"), .pkt (strBytes "ready\n"), .delim]
      else []) ++
      (if fetch || d then
        [.pkt (strBytes "packfile\n"),
         .sidebandMsg (strBytes "Hello from chartered!\n"), .chanFlush,
         .sidebandData (makeEntries cfg t), .flushPkt, .chanFlush,
         .exitStatus 0, .eof, .close]
      else [])

/-- Observable actions of `Handler::exec_request` on its channel. -/
inductive ExecEvent where
  | extData (stream : Nat) (msg : List Nat)
  | close
  | pkt (payload : List Nat)
  | flushPkt
  | chanFlush
deriving DecidableEq, Repr

/-- The capability advertisement written by `exec_request`
(`main.rs` lines 177-184), ending in a flush pkt and a buffer flush. -/
def capsEvents : List ExecEvent :=
  [.pkt (strBytes "version 2\n"), .pkt (strBytes "agent=chartered/0.1.0\n"),
   .pkt (strBytes "ls-refs=unborn\n"),
   .pkt (strBytes "fetch=shallow wait-for-done\n"),
   .pkt (strBytes "server-option\n"), .pkt (strBytes "object-info\n"),
   .flushPkt, .chanFlush]

/-- The `indoc!` stderr message of `exec_request` (lines 168-172); the
doubled braces are literal bytes of the byte-string literal. -/
def orgErrorMsg : List Nat :=
  strBytes "\r\nNo organisation was given in the path part of the SSH URI. A chartered registry should be defined in your .cargo/config.toml as follows:\n    [registries]\n    chartered = \x7b\x7b index = \"ssh://domain.to.registry.com/my-organisation\" \x7d\x7d\r\n\n"

/-- Translation of `org.trim_start_matches('/').trim_end_matches('/')` from
`exec_request` (lines 162-165): strip every leading then every trailing
`/`. -/
def trimSlashes (s : String) : String :=
  ⟨(((s.data.dropWhile (· = '/')).reverse).dropWhile (· = '/')).reverse⟩

/-- Translation of `Handler::exec_request` from `chartered-git/src/main.rs` (lines
142-188), over the shell-split argument list.  `none` models the
`anyhow::bail!("not git-upload-pack")` error; otherwise the result is
the organisation stored on the handler and the emitted channel events.
Note the missing-organisation branch falls through to the capability
advertisement (there is no early return after `session.close`). -/
def exec_request (args : List String) : Option (Option String × List ExecEvent) :=
  match args with
  | [] => none
  | cmd :: rest =>
    if cmd = "git-upload-pack" then
      match rest with
      | [] => some (none, .extData 1 orgErrorMsg :: .close :: capsEvents)
      | org :: _ =>
        if org = "/" then
          some (none, .extData 1 orgErrorMsg :: .close :: capsEvents)
        else
          some (some (trimSlashes org), capsEvents)
    else none

/-- The authentication verdicts of `thrussh::server::Auth` used by the
handler. -/
inductive Auth where
  | accept
  | reject
  | unsupportedMethod
deriving DecidableEq, Repr

/-- The session fields `Handler::auth_publickey` may set (`main.rs`
lines 66-75): the authenticated user and the SSH key used.  `U` and
`K` are the database types `User` and `UserSshKey`, opaque here. -/
structure AuthState (U K : Type) where
  user : Option U
  userSshKey : Option K
deriving DecidableEq, Repr

/-- Translation of `Handler::auth_publickey` (lines 200-222).  `find` is
`RegistryPort.find_user_by_ssh_key`; `updateLastUsedFails` is the
outcome of the best-effort `update_last_used` call, which is only
logged (`warn!`) and never changes the result. -/
def auth_publickey {U K : Type} (find : List Nat → Option (K × U))
    (updateLastUsedFails : Bool) (st : AuthState U K) (publicKey : List Nat) :
    AuthState U K × Auth :=
  match find publicKey with
  | none => (st, .reject)
  | some (sshKey, loginUser) =>
    let _ := updateLastUsedFails
    ({ st with user := some loginUser, userSshKey := some sshKey }, .accept)

/-- Translation of `Handler::auth_keyboard_interactive` (lines 224-231). -/
def auth_keyboard_interactive {U K : Type} (st : AuthState U K) :
    AuthState U K × Auth :=
  (st, .unsupportedMethod)

/-- Translation of `Handler::auth_none` (lines 233-235). -/
def auth_none {U K : Type} (st : AuthState U K) : AuthState U K × Auth :=
  (st, .unsupportedMethod)

/-- Translation of `Handler::auth_password` (lines 237-239). -/
def auth_password {U K : Type} (st : AuthState U K) : AuthState U K × Auth :=
  (st, .unsupportedMethod)

/-- Strict name order on tree items (spec §3: tree entries are sorted in
lexicographic byte order of the name). -/
def itemLt (a b : TreeItem) : Prop := bytesLt a.name b.name = true

/-- Strict key order on association-list entries, the `BTreeMap`
iteration order. -/
def keyLt {V : Type} (a b : List Nat × V) : Prop := bytesLt a.1 b.1 = true

/-- A tree's items are strictly sorted by name. -/
def treeSorted (items : List TreeItem) : Prop := List.Chain' itemLt items

/-- A tree has no two items with the same name. -/
def treeNodup (items : List TreeItem) : Prop :=
  List.Pairwise (fun a b => a.name ≠ b.name) items

/-- A map's keys are strictly sorted (the `BTreeMap` invariant). -/
def mapSorted {V : Type} (m : List (List Nat × V)) : Prop := List.Chain' keyLt m

/-- All three levels of a `fetch_tree` result are sorted maps. -/
def OuterSorted (t : OuterTree) : Prop :=
  mapSorted t ∧ ∀ p ∈ t, mapSorted p.2 ∧ ∀ q ∈ p.2, mapSorted q.2

/-- Both directory levels of a `fetch_tree` result use 2-byte keys
(`[u8; 2]` in the source). -/
def OuterKeys2 (t : OuterTree) : Prop :=
  ∀ p ∈ t, p.1.length = 2 ∧ ∀ q ∈ p.2, q.1.length = 2

/-- The object hashes an entry references: a tree references each item's
hash, a commit references its tree's hash, a blob references nothing. -/
def entryRefs : PackFileEntry → List (List Nat)
  | .blob _ => []
  | .tree items => items.map TreeItem.hash
  | .commit c => [c.tree]

/-- Some entry of `pre` has hash `r`. -/
def providedBy (pre : List PackFileEntry) (r : List Nat) : Prop :=
  ∃ e ∈ pre, PackFileEntry.hash e = r

/-- Every entry of the list only references hashes of entries of `pre`
or of earlier entries of the list itself. -/
def refsOk : List PackFileEntry → List PackFileEntry → Prop
  | _, [] => True
  | pre, e :: rest =>
    (∀ r ∈ entryRefs e, providedBy pre r) ∧ refsOk (pre ++ [e]) rest

/-- Index form of the dependency-order invariant: every hash referenced
by the entry at position `i` is the hash of an entry at some position
strictly before `i`. -/
def refsBefore (l : List PackFileEntry) : Prop :=
  ∀ i, ∀ hi : i < l.length, ∀ r ∈ entryRefs (l.get ⟨i, hi⟩),
    ∃ j, ∃ hj : j < l.length, j < i ∧ (l.get ⟨j, hj⟩).hash = r

theorem hexDigitVal_toHexDigit : ∀ n < 16, hexDigitVal (toHexDigit n) = some n := by
  decide

theorem parseHex4_encodeHex4 (n : Nat) (h : n < 65536) :
    parseHex4 (encodeHex4 n) = some n := by
  have h3 : n / 4096 % 16 < 16 := Nat.mod_lt _ (by omega)
  have h2 : n / 256 % 16 < 16 := Nat.mod_lt _ (by omega)
  have h1 : n / 16 % 16 < 16 := Nat.mod_lt _ (by omega)
  have h0 : n % 16 < 16 := Nat.mod_lt _ (by omega)
  simp only [encodeHex4, parseHex4, hexDigitVal_toHexDigit _ h3,
    hexDigitVal_toHexDigit _ h2, hexDigitVal_toHexDigit _ h1,
    hexDigitVal_toHexDigit _ h0, Option.bind_eq_bind, Option.some_bind,
    Option.pure_def]
  congr 1
  have m1 : n / 4096 % 16 = n / 4096 := Nat.mod_eq_of_lt (by omega)
  have d0 := Nat.div_add_mod n 16
  have d1 := Nat.div_add_mod (n / 16) 16
  have d2 := Nat.div_add_mod (n / 256) 16
  have e2 : n / 16 / 16 = n / 256 := by
    rw [Nat.div_div_eq_div_mul]
  have e3 : n / 256 / 16 = n / 4096 := by
    rw [Nat.div_div_eq_div_mul]
  rw [m1]
  omega

theorem encodeHex4_length (n : Nat) : (encodeHex4 n).length = 4 := rfl

theorem gitDecode_nil : gitDecode [] = .ok (none, []) := by
  rw [gitDecode.eq_def]
  simp

theorem gitDecode_encodeData (x : List Nat) (h1 : 1 ≤ x.length)
    (h2 : x.length ≤ 65516) :
    gitDecode (encodeData x) =
      .ok (some (if x.getLast? = some 10 then x.dropLast else x), []) := by
  have htake : (encodeHex4 (x.length + 4) ++ x).take 4 = encodeHex4 (x.length + 4) :=
    List.take_left' (encodeHex4_length _)
  have hdrop : (encodeHex4 (x.length + 4) ++ x).drop 4 = x :=
    List.drop_left' (encodeHex4_length _)
  have hlen : (encodeHex4 (x.length + 4) ++ x).length = x.length + 4 := by
    simp [List.length_append, encodeHex4_length]
    omega
  have hparse : parseHex4 ((encodeHex4 (x.length + 4) ++ x).take 4) =
      some (x.length + 4) := by
    rw [htake]
    exact parseHex4_encodeHex4 _ (by omega)
  have htakeLen : (encodeHex4 (x.length + 4) ++ x).take (x.length + 4) =
      encodeHex4 (x.length + 4) ++ x := by
    rw [← hlen]
    exact List.take_length _
  have hdropLen : (encodeHex4 (x.length + 4) ++ x).drop (x.length + 4) = [] := by
    rw [← hlen]
    exact List.drop_length _
  rw [encodeData, gitDecode.eq_def]
  rw [dif_neg (by omega : ¬ (encodeHex4 (x.length + 4) ++ x).length < 4)]
  rw [hparse]
  simp only
  rw [if_neg (by omega : ¬ (x.length + 4 = 0 ∨ x.length + 4 = 1 ∨ x.length + 4 = 2))]
  rw [if_neg (by omega : ¬ (x.length + 4 < 4 ∨ 65520 < x.length + 4))]
  rw [if_neg (by omega : ¬ (encodeHex4 (x.length + 4) ++ x).length < x.length + 4)]
  rw [htakeLen, hdrop, hdropLen]

theorem gitDecode_control (ctrl rest : List Nat) (hl : ctrl.length = 4)
    (hc : parseHex4 ctrl = some 0 ∨ parseHex4 ctrl = some 1 ∨ parseHex4 ctrl = some 2) :
    gitDecode (ctrl ++ rest) = gitDecode rest := by
  have htake : (ctrl ++ rest).take 4 = ctrl := List.take_left' hl
  have hdrop : (ctrl ++ rest).drop 4 = rest := List.drop_left' hl
  have hlen : ¬ (ctrl ++ rest).length < 4 := by
    simp [List.length_append, hl]
  rw [gitDecode.eq_def, dif_neg hlen, htake]
  rcases hc with hc | hc | hc <;> rw [hc] <;>
    · show gitDecode (List.drop 4 (ctrl ++ rest)) = gitDecode rest
      rw [hdrop]

theorem parseHex4_flush : parseHex4 encodeFlush = some 0 := by decide

theorem parseHex4_delim : parseHex4 encodeDelim = some 1 := by decide

theorem parseHex4_respEnd : parseHex4 encodeRespEnd = some 2 := by decide

theorem gitDecode_flush : gitDecode encodeFlush = .ok (none, []) := by
  have h := gitDecode_control encodeFlush [] (by decide) (Or.inl parseHex4_flush)
  rwa [List.append_nil, gitDecode_nil] at h

theorem gitDecode_delim : gitDecode encodeDelim = .ok (none, []) := by
  have h := gitDecode_control encodeDelim [] (by decide)
    (Or.inr (Or.inl parseHex4_delim))
  rwa [List.append_nil, gitDecode_nil] at h

theorem gitDecode_respEnd : gitDecode encodeRespEnd = .ok (none, []) := by
  have h := gitDecode_control encodeRespEnd [] (by decide)
    (Or.inr (Or.inr parseHex4_respEnd))
  rwa [List.append_nil, gitDecode_nil] at h

theorem scanFrames_append_empty (pre : List Frame) (f : Frame)
    (post : List Frame) (a b c : Bool) (h : ∀ g ∈ pre, g.command ≠ [])
    (hf : f.command = []) :
    scanFrames (pre ++ f :: post) a b c = none := by
  induction pre generalizing a b c with
  | nil =>
    simp only [List.nil_append, scanFrames]
    rw [if_pos hf]
  | cons g rest ih =>
    have hg : g.command ≠ [] := h g (by simp)
    have hrest : ∀ g' ∈ rest, g'.command ≠ [] :=
      fun g' hg' => h g' (List.mem_cons_of_mem _ hg')
    simp only [List.cons_append, scanFrames]
    rw [if_neg hg]
    by_cases h1 : g.command = strBytes "command=ls-refs"
    · rw [if_pos h1]
      exact ih _ _ _ hrest
    · rw [if_neg h1]
      by_cases h2 : g.command = strBytes "command=fetch"
      · rw [if_pos h2]
        by_cases h3 : (g.metadata.contains (strBytes "done")) = true
        · rw [if_pos h3]
          exact ih _ _ _ hrest
        · rw [if_neg h3]
          exact ih _ _ _ hrest
      · rw [if_neg h2]
        exact ih _ _ _ hrest

/-- Claim **C9**: whenever a decoded frame has an empty command, `Handler::data`
sends exit-status 0, EOF and close and returns immediately, even when a
`command=ls-refs` or `command=fetch` frame was decoded earlier in the same
call: any such pending command is discarded and no response is emitted. -/
theorem data_empty_command_closes (now : Timepoint) (pre post : List Frame)
    (f : Frame) (cfg : List Nat) (t : OuterTree)
    (h : ∀ g ∈ pre, g.command ≠ []) (hf : f.command = []) :
    data now (pre ++ f :: post) cfg t =
      [.exitStatus 0, .eof, .close] := by
  unfold data
  rw [scanFrames_append_empty pre f post false false false h hf]

/-- Claim **C9** witness: a `command=fetch` frame followed by an empty-command
frame yields only exit-status 0, EOF, close. -/
theorem data_empty_command_closes_witness :
    (∀ g ∈ [Frame.mk (strBytes "command=fetch") []], g.command ≠ []) ∧
    (Frame.mk [] []).command = [] ∧
    data ⟨2021, 9, 8, 17, 46, 1⟩
      ([Frame.mk (strBytes "command=fetch") []] ++ Frame.mk [] [] :: [])
      [] [] = [.exitStatus 0, .eof, .close] :=
  ⟨by decide, rfl,
    data_empty_command_closes ⟨2021, 9, 8, 17, 46, 1⟩
      [Frame.mk (strBytes "command=fetch") []] [] (Frame.mk [] []) [] []
      (by decide) rfl⟩

/-- Claim **C10**: the missing-organisation branch of `exec_request` is taken
exactly when the path argument after `git-upload-pack` is absent or is the
one-character string `/`; any other argument is accepted and the
organisation is the argument with leading and trailing `/` stripped,
possibly the empty string. -/
theorem exec_request_org_branch (p : String) (rest : List String) :
    exec_request ["git-upload-pack"] =
      some (none, .extData 1 orgErrorMsg :: .close :: capsEvents) ∧
    (p = "/" → exec_request ("git-upload-pack" :: p :: rest) =
      some (none, .extData 1 orgErrorMsg :: .close :: capsEvents)) ∧
    (p ≠ "/" → exec_request ("git-upload-pack" :: p :: rest) =
      some (some (trimSlashes p), capsEvents)) := by
  refine ⟨rfl, fun hp => ?_, fun hp => ?_⟩
  · simp [exec_request, hp]
  · simp [exec_request, hp]

/-- Claim **C10** witness: the path `//` is not `/`, is accepted, and trims to
the empty organisation. -/
theorem exec_request_org_branch_witness :
    ("//" : String) ≠ "/" ∧
    exec_request ["git-upload-pack", "//"] = some (some "", capsEvents) := by
  refine ⟨by decide, ?_⟩
  have h := (exec_request_org_branch "//" []).2.2 (by decide)
  rwa [show trimSlashes "//" = "" from rfl] at h

/-- Claim **C2** counterexample: for exec `git-upload-pack /` the handler does
emit protocol frames on the channel — the `version 2` capability pkt-line
is among the emitted events (the missing-organisation branch has no early
return, so the capability advertisement follows the stderr message and
the close). -/
theorem exec_missing_org_counterexample :
    ExecEvent.pkt (strBytes "version 2\n") ∈
      ((exec_request ["git-upload-pack", "/"]).getD (none, [])).2 := by
  decide

/-- Claim **C2** (amended): with no path argument or with path exactly `/`,
`exec_request` writes the human-readable message on extended-data
stream 1 and closes the channel, but then still writes the full
capability advertisement to the closed channel (no early return). -/
theorem exec_missing_org (rest : List String) :
    exec_request ["git-upload-pack"] =
      some (none, .extData 1 orgErrorMsg :: .close :: capsEvents) ∧
    exec_request ("git-upload-pack" :: "/" :: rest) =
      some (none, .extData 1 orgErrorMsg :: .close :: capsEvents) := by
  exact ⟨rfl, by simp [exec_request]⟩

/-- Claim **C7**: only public-key authentication can succeed: password,
keyboard-interactive and none are refused with `UnsupportedMethod`; a
public-key offer with an unknown key is rejected with the session state
unchanged; a known key is accepted with the `User` and `UserSshKey`
stored, regardless of whether the best-effort last-used update fails. -/
theorem auth_only_publickey {U K : Type} (find : List Nat → Option (K × U))
    (st : AuthState U K) (pk : List Nat) :
    auth_password st = (st, Auth.unsupportedMethod) ∧
    auth_keyboard_interactive st = (st, Auth.unsupportedMethod) ∧
    auth_none st = (st, Auth.unsupportedMethod) ∧
    (∀ b, find pk = none → auth_publickey find b st pk = (st, Auth.reject)) ∧
    (∀ b b' k u, find pk = some (k, u) →
      auth_publickey find b st pk =
        (⟨some u, some k⟩, Auth.accept) ∧
      auth_publickey find b st pk = auth_publickey find b' st pk) := by
  refine ⟨rfl, rfl, rfl, fun b hn => ?_, fun b b' k u hs => ?_⟩
  · simp [auth_publickey, hn]
  · simp [auth_publickey, hs]

/-- Claim **C7** witness: a two-point key table, evaluated at a missing and at
a present key. -/
theorem auth_only_publickey_witness :
    ((fun l : List Nat => if l = [1] then some ((3 : Nat), (7 : Nat)) else none) [2]
      = none) ∧
    auth_publickey (fun l : List Nat => if l = [1] then some ((3 : Nat), (7 : Nat)) else none)
      true (⟨none, none⟩ : AuthState Nat Nat) [2] =
      (⟨none, none⟩, Auth.reject) ∧
    auth_publickey (fun l : List Nat => if l = [1] then some ((3 : Nat), (7 : Nat)) else none)
      true (⟨none, none⟩ : AuthState Nat Nat) [1] =
      (⟨some 7, some 3⟩, Auth.accept) := by
  refine ⟨by decide, ?_, ?_⟩
  · exact (auth_only_publickey _ (⟨none, none⟩ : AuthState Nat Nat) [2]).2.2.2.1
      true (by decide)
  · exact ((auth_only_publickey _ (⟨none, none⟩ : AuthState Nat Nat) [1]).2.2.2.2
      true false 3 7 (by decide)).1

/-- Claim **C8**: the fetch output is deterministic and independent of the
time of the request: for fixed frames, config (session key and
organisation) and registry tree, the handler's event list — including
the pack-file entry list and the commit hash inside it — is the same at
any two request times, and the commit's author and committer carry the
compile-time constant timestamp 2021-09-08 17:46:01 UTC. -/
theorem data_time_independent (now now' : Timepoint) (frames : List Frame)
    (cfg : List Nat) (t : OuterTree) :
    data now frames cfg t = data now' frames cfg t ∧
    (∀ c, commitEntryFor cfg t = .commit c →
      c.author.time = ⟨2021, 9, 8, 17, 46, 1⟩ ∧
      c.committer.time = ⟨2021, 9, 8, 17, 46, 1⟩) := by
  refine ⟨rfl, fun c hc => ?_⟩
  cases hc
  exact ⟨rfl, rfl⟩

/-- Claim **C8** witness: evaluated at two different timepoints, with the
commit-equation hypothesis discharged at the commit actually built. -/
theorem data_time_independent_witness :
    data ⟨2021, 9, 8, 17, 46, 1⟩ [] [] [] = data ⟨2026, 1, 2, 3, 4, 5⟩ [] [] [] ∧
    commitEntryFor [] [] =
      PackFileEntry.commit ⟨(rootTreeFor [] []).hash, commitUserInfo,
        commitUserInfo, strBytes "Most recent crates"⟩ ∧
    commitUserInfo.time = ⟨2021, 9, 8, 17, 46, 1⟩ :=
  ⟨(data_time_independent ⟨2021, 9, 8, 17, 46, 1⟩ ⟨2026, 1, 2, 3, 4, 5⟩ [] [] []).1,
    rfl,
    ((data_time_independent ⟨2021, 9, 8, 17, 46, 1⟩ ⟨2026, 1, 2, 3, 4, 5⟩ [] [] []).2
      ⟨(rootTreeFor [] []).hash, commitUserInfo, commitUserInfo,
        strBytes "Most recent crates"⟩ rfl).1⟩

/-- Claim **C1** counterexample: for a `command=fetch` frame whose metadata
contains `done`, the handler emits no `acknowledgments\n` pkt-line at
all (the `if fetch` block is skipped because `done` in the metadata sets
`done` instead of `fetch`), so the claimed sequence starting with
`acknowledgments\n`, `ready\n`, delimiter is not produced. -/
theorem fetch_done_counterexample :
    Event.pkt (strBytes "acknowledgments\n") ∉
      data ⟨2021, 9, 8, 17, 46, 1⟩
        [Frame.mk (strBytes "command=fetch") [strBytes "done"]] [] [] ∧
    (data ⟨2021, 9, 8, 17, 46, 1⟩
        [Frame.mk (strBytes "command=fetch") [strBytes "done"]] [] []).head? =
      some (Event.pkt (strBytes "packfile\n")) := by
  constructor
  · decide
  · decide

/-- Claim **C1** (amended): on a `command=fetch` frame whose metadata contains
`done`, the handler emits, in order: a data pkt-line `packfile\n`, the
sideband progress greeting, a channel flush, the full packfile as
sideband data, a flush pkt, a channel flush, then exit-status 0, EOF and
channel close — without the `acknowledgments\n`/`ready\n`/delimiter
section, which is only produced for a fetch frame lacking `done`. -/
theorem fetch_done_output (now : Timepoint) (cfg : List Nat) (t : OuterTree)
    (meta : List (List Nat)) (hmeta : meta.contains (strBytes "done") = true) :
    data now [Frame.mk (strBytes "command=fetch") meta] cfg t =
      [.pkt (strBytes "packfile\n"),
       .sidebandMsg (strBytes "Hello from chartered!\n"), .chanFlush,
       .sidebandData (makeEntries cfg t), .flushPkt, .chanFlush,
       .exitStatus 0, .eof, .close] := by
  simp only [data, scanFrames]
  rw [if_pos trivial, if_pos hmeta]
  rfl

/-- Claim **C1** witness: evaluated with metadata `["done"]` on the empty
registry tree. -/
theorem fetch_done_output_witness :
    ([strBytes "done"].contains (strBytes "done") = true) ∧
    data ⟨2021, 9, 8, 17, 46, 1⟩
        [Frame.mk (strBytes "command=fetch") [strBytes "done"]] [] [] =
      [.pkt (strBytes "packfile\n"),
       .sidebandMsg (strBytes "Hello from chartered!\n"), .chanFlush,
       .sidebandData (makeEntries [] []), .flushPkt, .chanFlush,
       .exitStatus 0, .eof, .close] :=
  ⟨by decide,
    fetch_done_output ⟨2021, 9, 8, 17, 46, 1⟩ [] [] [strBytes "done"] (by decide)⟩

/-- Claim **C3** counterexample: the payload `[10]` (a lone `\n`) does not
round-trip — the decoder strips the trailing newline and yields the
empty payload — and the encoded flush pkt decodes to nothing (the
decoder consumes it and reports need-more-data) rather than to a tagged
control variant (the decoder's item type has no control variants). -/
theorem pktline_roundtrip_counterexample :
    gitDecode (encodeData [10]) = .ok (some [], []) ∧
    ([] : List Nat) ≠ [10] ∧
    gitDecode encodeFlush = .ok (none, []) := by
  refine ⟨?_, by decide, gitDecode_flush⟩
  have h := gitDecode_encodeData [10] (by decide) (by decide)
  rwa [if_pos (by decide)] at h

/-- Claim **C3** (amended): for payloads `x` with `1 ≤ len(x) ≤ 65516` not
ending in `\n`, `decode (encode x) = x` with the buffer fully consumed;
a payload ending in `\n` decodes with that single trailing byte
stripped; and the encoded control frames (flush `0000`, delimiter
`0001`, response-end `0002`) are consumed and skipped by the decoder —
decoding continues at the following frame — rather than being returned
as tagged variants. -/
theorem pktline_roundtrip (x : List Nat) (h1 : 1 ≤ x.length)
    (h2 : x.length ≤ 65516) :
    (x.getLast? ≠ some 10 → gitDecode (encodeData x) = .ok (some x, [])) ∧
    (x.getLast? = some 10 → gitDecode (encodeData x) = .ok (some x.dropLast, [])) ∧
    gitDecode (encodeFlush ++ encodeData x) = gitDecode (encodeData x) ∧
    gitDecode (encodeDelim ++ encodeData x) = gitDecode (encodeData x) ∧
    gitDecode (encodeRespEnd ++ encodeData x) = gitDecode (encodeData x) ∧
    gitDecode encodeFlush = .ok (none, []) ∧
    gitDecode encodeDelim = .ok (none, []) ∧
    gitDecode encodeRespEnd = .ok (none, []) := by
  refine ⟨fun h => ?_, fun h => ?_,
    gitDecode_control _ _ (by decide) (Or.inl parseHex4_flush),
    gitDecode_control _ _ (by decide) (Or.inr (Or.inl parseHex4_delim)),
    gitDecode_control _ _ (by decide) (Or.inr (Or.inr parseHex4_respEnd)),
    gitDecode_flush, gitDecode_delim, gitDecode_respEnd⟩
  · rw [gitDecode_encodeData x h1 h2, if_neg h]
  · rw [gitDecode_encodeData x h1 h2, if_pos h]

/-- Claim **C3** witness: the one-byte payload `a` round-trips, also behind a
flush pkt. -/
theorem pktline_roundtrip_witness :
    (1 ≤ ([97] : List Nat).length) ∧ (([97] : List Nat).length ≤ 65516) ∧
    gitDecode (encodeData [97]) = .ok (some [97], []) ∧
    gitDecode (encodeFlush ++ encodeData [97]) = gitDecode (encodeData [97]) :=
  ⟨by decide, by decide,
    (pktline_roundtrip [97] (by decide) (by decide)).1 (by decide),
    (pktline_roundtrip [97] (by decide) (by decide)).2.2.1⟩

theorem fetch_tree_isSome (listing : List (List Nat × List Nat))
    (acc : OuterTree) :
    (fetch_tree listing acc).isSome = true ↔
      ∀ c ∈ listing, 4 ≤ (Prod.fst c).length := by
  induction listing generalizing acc with
  | nil => simp [fetch_tree]
  | cons c rest ih =>
    obtain ⟨name, file⟩ := c
    match name with
    | [] => simp [fetch_tree]
    | [b0] => simp [fetch_tree]
    | [b0, b1] => simp [fetch_tree]
    | [b0, b1, b2] => simp [fetch_tree]
    | b0 :: b1 :: b2 :: b3 :: tail =>
      simp only [fetch_tree]
      rw [ih, List.forall_mem_cons]
      have h4 : 4 ≤ (b0 :: b1 :: b2 :: b3 :: tail).length := by
        simp only [List.length_cons]
        omega
      simp [h4]

/-- Claim **C6**: when every crate name in the listing is at least 4 bytes
long, `fetch_tree` succeeds — the `name[0..2]`/`name[2..4]` reads via
`next().unwrap()` cannot fail; and a listing containing a name shorter
than 4 bytes is handled deterministically: `fetch_tree` always takes
the failure branch (`unwrap` on `None`, modelled as `none`). -/
theorem fetch_tree_short_names (listing : List (List Nat × List Nat)) :
    ((∀ c ∈ listing, 4 ≤ (Prod.fst c).length) →
      (fetch_tree listing []).isSome = true) ∧
    ((∃ c ∈ listing, (Prod.fst c).length < 4) →
      fetch_tree listing [] = none) := by
  constructor
  · intro h
    exact (fetch_tree_isSome listing []).mpr h
  · rintro ⟨c, hc, hlen⟩
    cases hopt : fetch_tree listing [] with
    | none => rfl
    | some t =>
      exfalso
      have hall := (fetch_tree_isSome listing []).mp (by rw [hopt]; rfl)
      have := hall c hc
      omega

/-- Claim **C6** witness: the 5-byte name `serde` succeeds; the 1-byte name
`a` deterministically fails. -/
theorem fetch_tree_short_names_witness :
    (∀ c ∈ [(([115, 101, 114, 100, 101] : List Nat), ([107] : List Nat))],
      4 ≤ (Prod.fst c).length) ∧
    (fetch_tree [([115, 101, 114, 100, 101], [107])] []).isSome = true ∧
    (∃ c ∈ [(([97] : List Nat), ([] : List Nat))], (Prod.fst c).length < 4) ∧
    fetch_tree [([97], [])] [] = none :=
  ⟨by decide, (fetch_tree_short_names _).1 (by decide), by decide,
    (fetch_tree_short_names _).2 (by decide)⟩

theorem bytesLt_cons (a b : Nat) (as bs : List Nat) :
    bytesLt (a :: as) (b :: bs) = true ↔
      a < b ∨ (a = b ∧ bytesLt as bs = true) := by
  simp [bytesLt, Bool.or_eq_true, Bool.and_eq_true, decide_eq_true_eq]

theorem bytesLt_irrefl : ∀ a : List Nat, bytesLt a a = false := by
  intro a
  induction a with
  | nil => rfl
  | cons x xs ih => simp [bytesLt, ih]

theorem bytesLt_trans : ∀ a b c : List Nat,
    bytesLt a b = true → bytesLt b c = true → bytesLt a c = true := by
  intro a
  induction a with
  | nil =>
    intro b c h1 h2
    cases b with
    | nil => simp [bytesLt] at h1
    | cons b0 bs =>
      cases c with
      | nil => simp [bytesLt] at h2
      | cons c0 cs => rfl
  | cons a0 as ih =>
    intro b c h1 h2
    cases b with
    | nil => simp [bytesLt] at h1
    | cons b0 bs =>
      cases c with
      | nil => simp [bytesLt] at h2
      | cons c0 cs =>
        rw [bytesLt_cons] at h1 h2 ⊢
        rcases h1 with h1 | ⟨e1, t1⟩ <;> rcases h2 with h2 | ⟨e2, t2⟩
        · left; omega
        · left; omega
        · left; omega
        · right; exact ⟨by omega, ih bs cs t1 t2⟩

theorem bytesLt_total : ∀ a b : List Nat,
    a ≠ b → bytesLt a b = true ∨ bytesLt b a = true := by
  intro a
  induction a with
  | nil =>
    intro b hb
    cases b with
    | nil => exact absurd rfl hb
    | cons b0 bs => left; rfl
  | cons a0 as ih =>
    intro b hb
    cases b with
    | nil => right; rfl
    | cons b0 bs =>
      by_cases h0 : a0 = b0
      · subst h0
        have hne : as ≠ bs := fun h => hb (by rw [h])
        rcases ih bs hne with h | h
        · left
          rw [bytesLt_cons]
          exact Or.inr ⟨rfl, h⟩
        · right
          rw [bytesLt_cons]
          exact Or.inr ⟨rfl, h⟩
      · rcases Nat.lt_or_ge a0 b0 with h | h
        · left
          rw [bytesLt_cons]
          exact Or.inl h
        · right
          rw [bytesLt_cons]
          exact Or.inl (by omega)

theorem treeSorted_nodup {items : List TreeItem} (h : treeSorted items) :
    treeNodup items := by
  haveI : IsTrans TreeItem itemLt :=
    ⟨fun a b c h1 h2 => bytesLt_trans a.name b.name c.name h1 h2⟩
  have hp : List.Pairwise itemLt items := List.chain'_iff_pairwise.mp h
  refine hp.imp ?_
  intro a b hab heq
  rw [itemLt, heq, bytesLt_irrefl] at hab
  cases hab

theorem mapUpdate_head_key {V : Type} (k : List Nat) (f : V → V) (d : V)
    (l : List (List Nat × V)) :
    ∀ y ∈ (mapUpdate k f d l).head?, y.1 = k ∨ ∃ z ∈ l.head?, y.1 = z.1 := by
  cases l with
  | nil =>
    intro y hy
    simp [mapUpdate] at hy
    subst hy
    left
    rfl
  | cons p rest =>
    intro y hy
    simp only [mapUpdate] at hy
    by_cases h1 : bytesLt k p.1 = true
    · rw [if_pos h1] at hy
      simp at hy
      subst hy
      left
      rfl
    · rw [if_neg h1] at hy
      by_cases h2 : k = p.1
      · rw [if_pos h2] at hy
        simp at hy
        subst hy
        right
        exact ⟨p, by simp, rfl⟩
      · rw [if_neg h2] at hy
        simp at hy
        subst hy
        right
        exact ⟨p, by simp, rfl⟩

theorem mapUpdate_sorted {V : Type} (k : List Nat) (f : V → V) (d : V) :
    ∀ l : List (List Nat × V), mapSorted l → mapSorted (mapUpdate k f d l) := by
  intro l
  induction l with
  | nil =>
    intro _
    simp [mapUpdate, mapSorted]
  | cons p rest ih =>
    intro h
    rw [mapSorted, List.chain'_cons'] at h
    obtain ⟨hhead, htail⟩ := h
    simp only [mapUpdate]
    by_cases h1 : bytesLt k p.1 = true
    · rw [if_pos h1, mapSorted, List.chain'_cons']
      refine ⟨?_, ?_⟩
      · intro y hy
        simp at hy
        subst hy
        exact h1
      · rw [List.chain'_cons']
        exact ⟨hhead, htail⟩
    · rw [if_neg h1]
      by_cases h2 : k = p.1
      · rw [if_pos h2, mapSorted, List.chain'_cons']
        exact ⟨fun y hy => hhead y hy, htail⟩
      · rw [if_neg h2, mapSorted, List.chain'_cons']
        constructor
        · intro y hy
          rcases mapUpdate_head_key k f d rest y hy with hk | ⟨z, hz, hyz⟩
          · rcases bytesLt_total k p.1 h2 with hlt | hlt
            · exact absurd hlt h1
            · rw [keyLt, hk]
              exact hlt
          · have hz' := hhead z hz
            rw [keyLt, hyz]
            exact hz'
        · exact ih htail

theorem mapUpdate_values {V : Type} (P : V → Prop) (k : List Nat) (f : V → V)
    (d : V) :
    ∀ l : List (List Nat × V), (∀ p ∈ l, P p.2) → P (f d) →
      (∀ v, P v → P (f v)) → ∀ q ∈ mapUpdate k f d l, P q.2 := by
  intro l
  induction l with
  | nil =>
    intro _ hfd _ q hq
    simp [mapUpdate] at hq
    rw [hq]
    exact hfd
  | cons p rest ih =>
    intro hall hfd hcl q hq
    simp only [mapUpdate] at hq
    by_cases h1 : bytesLt k p.1 = true
    · rw [if_pos h1, List.mem_cons, List.mem_cons] at hq
      rcases hq with hq | hq | hq
      · rw [hq]
        exact hfd
      · rw [hq]
        exact hall p (by simp)
      · exact hall q (by simp [hq])
    · rw [if_neg h1] at hq
      by_cases h2 : k = p.1
      · rw [if_pos h2, List.mem_cons] at hq
        rcases hq with hq | hq
        · rw [hq]
          exact hcl p.2 (hall p (by simp))
        · exact hall q (by simp [hq])
      · rw [if_neg h2, List.mem_cons] at hq
        rcases hq with hq | hq
        · rw [hq]
          exact hall p (by simp)
        · exact ih (fun p' hp' => hall p' (by simp [hp'])) hfd hcl q hq

theorem mapUpdate_keys {V : Type} (k : List Nat) (f : V → V) (d : V) :
    ∀ l : List (List Nat × V), ∀ q ∈ mapUpdate k f d l,
      q.1 = k ∨ q.1 ∈ l.map Prod.fst := by
  intro l
  induction l with
  | nil =>
    intro q hq
    simp [mapUpdate] at hq
    left
    rw [hq]
  | cons p rest ih =>
    intro q hq
    simp only [mapUpdate] at hq
    by_cases h1 : bytesLt k p.1 = true
    · rw [if_pos h1, List.mem_cons, List.mem_cons] at hq
      rcases hq with hq | hq | hq
      · left; rw [hq]
      · right; simp [hq]
      · right
        simp only [List.map_cons, List.mem_cons]
        right
        exact List.mem_map_of_mem Prod.fst hq
    · rw [if_neg h1] at hq
      by_cases h2 : k = p.1
      · rw [if_pos h2, List.mem_cons] at hq
        rcases hq with hq | hq
        · right; simp [hq]
        · right
          simp only [List.map_cons, List.mem_cons]
          right
          exact List.mem_map_of_mem Prod.fst hq
      · rw [if_neg h2, List.mem_cons] at hq
        rcases hq with hq | hq
        · right; simp [hq]
        · rcases ih q hq with h | h
          · left; exact h
          · right
            simp only [List.map_cons, List.mem_cons]
            right
            exact h

theorem fetch_tree_inv : ∀ (listing : List (List Nat × List Nat))
    (acc t : OuterTree), OuterSorted acc → OuterKeys2 acc →
    fetch_tree listing acc = some t → OuterSorted t ∧ OuterKeys2 t := by
  intro listing
  induction listing with
  | nil =>
    intro acc t hs hk h
    simp [fetch_tree] at h
    subst h
    exact ⟨hs, hk⟩
  | cons c rest ih =>
    intro acc t hs hk h
    obtain ⟨name, file⟩ := c
    rcases name with _ | ⟨b0, _ | ⟨b1, _ | ⟨b2, _ | ⟨b3, tail⟩⟩⟩⟩
    · simp [fetch_tree] at h
    · simp [fetch_tree] at h
    · simp [fetch_tree] at h
    · simp [fetch_tree] at h
    · simp only [fetch_tree] at h
      refine ih _ t ?_ ?_ h
      · constructor
        · exact mapUpdate_sorted _ _ _ acc hs.1
        · intro p hp
          refine mapUpdate_values
            (fun inner => mapSorted inner ∧ ∀ q ∈ inner, mapSorted q.2)
            _ _ _ acc (fun p' hp' => hs.2 p' hp') ?_ ?_ p hp
          · constructor
            · simp [mapUpdate, mapSorted]
            · intro q hq
              simp [mapUpdate] at hq
              rw [hq]
              simp [mapUpdate, mapSorted]
          · intro v hv
            constructor
            · exact mapUpdate_sorted _ _ _ v hv.1
            · intro q hq
              refine mapUpdate_values (fun leaf => mapSorted leaf)
                _ _ _ v hv.2 ?_ ?_ q hq
              · simp [mapUpdate, mapSorted]
              · intro leaf hleaf
                exact mapUpdate_sorted _ _ _ leaf hleaf
      · intro p hp
        constructor
        · rcases mapUpdate_keys _ _ _ acc p hp with hkey | hkey
          · rw [hkey]
            rfl
          · obtain ⟨p', hp', hfst⟩ := List.mem_map.mp hkey
            rw [← hfst]
            exact (hk p' hp').1
        · refine mapUpdate_values (fun inner => ∀ q ∈ inner, q.1.length = 2)
            _ _ _ acc (fun p' hp' => (hk p' hp').2) ?_ ?_ p hp
          · intro q hq
            simp [mapUpdate] at hq
            rw [hq]
            rfl
          · intro v hv q hq
            rcases mapUpdate_keys _ _ _ v q hq with hkey | hkey
            · rw [hkey]
              rfl
            · obtain ⟨q', hq', hfst⟩ := List.mem_map.mp hkey
              rw [← hfst]
              exact hv q' hq'

theorem buildCrates_names : ∀ m : LeafMap,
    ((buildCrates m).1).map TreeItem.name = m.map Prod.fst := by
  intro m
  induction m with
  | nil => rfl
  | cons p rest ih =>
    obtain ⟨n, f⟩ := p
    simp [buildCrates, ih]

theorem buildSeconds_names : ∀ inner : InnerMap,
    ((buildSeconds inner).1).map TreeItem.name = inner.map Prod.fst := by
  intro inner
  induction inner with
  | nil => rfl
  | cons p rest ih =>
    obtain ⟨d, c⟩ := p
    simp [buildSeconds, ih]

theorem build_tree_names : ∀ t : OuterTree,
    ((build_tree t).1).map TreeItem.name = t.map Prod.fst := by
  intro t
  induction t with
  | nil => rfl
  | cons p rest ih =>
    obtain ⟨d, s⟩ := p
    simp [build_tree, ih]

theorem treeSorted_of_names {V : Type} {items : List TreeItem}
    {m : List (List Nat × V)}
    (hn : items.map TreeItem.name = m.map Prod.fst) (hm : mapSorted m) :
    treeSorted items := by
  have h1 : List.Chain' (fun a b : List Nat => bytesLt a b = true)
      (items.map TreeItem.name) := by
    rw [hn]
    exact (List.chain'_map Prod.fst).mpr hm
  exact (List.chain'_map TreeItem.name).mp h1

theorem buildCrates_entries_blob : ∀ (m : LeafMap), ∀ e ∈ (buildCrates m).2,
    ∃ c, e = PackFileEntry.blob c := by
  intro m
  induction m with
  | nil =>
    intro e he
    simp [buildCrates] at he
  | cons p rest ih =>
    intro e he
    obtain ⟨n, f⟩ := p
    simp only [buildCrates, List.mem_cons] at he
    rcases he with he | he
    · exact ⟨f, he⟩
    · exact ih e he

theorem tree_mem_buildSeconds : ∀ (inner : InnerMap) (items : List TreeItem),
    PackFileEntry.tree items ∈ (buildSeconds inner).2 →
      ∃ q ∈ inner, items = (buildCrates q.2).1 := by
  intro inner
  induction inner with
  | nil =>
    intro items h
    simp [buildSeconds] at h
  | cons p rest ih =>
    intro items h
    obtain ⟨dir, crates⟩ := p
    simp only [buildSeconds, List.mem_append, List.mem_cons] at h
    rcases h with h | h | h
    · obtain ⟨c, hc⟩ := buildCrates_entries_blob crates _ h
      simp at hc
    · refine ⟨(dir, crates), by simp, ?_⟩
      injection h
    · obtain ⟨q, hq, he⟩ := ih items h
      exact ⟨q, by simp [hq], he⟩

theorem tree_mem_build_tree : ∀ (t : OuterTree) (items : List TreeItem),
    PackFileEntry.tree items ∈ (build_tree t).2 →
      (∃ p ∈ t, items = (buildSeconds p.2).1) ∨
      (∃ p ∈ t, ∃ q ∈ p.2, items = (buildCrates q.2).1) := by
  intro t
  induction t with
  | nil =>
    intro items h
    simp [build_tree] at h
  | cons p rest ih =>
    intro items h
    obtain ⟨dir, seconds⟩ := p
    simp only [build_tree, List.mem_append, List.mem_cons] at h
    rcases h with h | h | h
    · obtain ⟨q, hq, he⟩ := tree_mem_buildSeconds seconds items h
      right
      exact ⟨(dir, seconds), by simp, q, hq, he⟩
    · left
      refine ⟨(dir, seconds), by simp, ?_⟩
      injection h
    · rcases ih items h with ⟨p', hp', he⟩ | ⟨p', hp', q, hq, he⟩
      · left
        exact ⟨p', by simp [hp'], he⟩
      · right
        exact ⟨p', by simp [hp'], q, hq, he⟩

/-- Claim **C4** (amended): every first-level and second-level tree built by
`build_tree` is strictly sorted by name in byte order with no duplicate
names, and the first-level directory items appended to the root tree are
strictly sorted among themselves; the root tree is `config.json`
followed by those directory items and has no duplicate names — but the
root tree as a whole is *not* sorted whenever a directory name precedes
`config.json` in byte order (see the counterexample), because
`config.json` is pushed first unconditionally. -/
theorem index_trees_sorted (listing : List (List Nat × List Nat))
    (cfg : List Nat) (t : OuterTree) (h : fetch_tree listing [] = some t) :
    (∀ items, PackFileEntry.tree items ∈ (build_tree t).2 →
      treeSorted items ∧ treeNodup items) ∧
    treeSorted (build_tree t).1 ∧ treeNodup (build_tree t).1 ∧
    rootItemsFor cfg t =
      ⟨.file, strBytes "config.json", (PackFileEntry.blob cfg).hash⟩ ::
        (build_tree t).1 ∧
    treeNodup (rootItemsFor cfg t) := by
  obtain ⟨hs, hk⟩ := fetch_tree_inv listing [] t
    ⟨List.chain'_nil, fun p hp => absurd hp (List.not_mem_nil p)⟩
    (fun p hp => absurd hp (List.not_mem_nil p)) h
  have hsorted1 : treeSorted (build_tree t).1 :=
    treeSorted_of_names (build_tree_names t) hs.1
  refine ⟨?_, hsorted1, treeSorted_nodup hsorted1, rfl, ?_⟩
  · intro items hmem
    rcases tree_mem_build_tree t items hmem with ⟨p, hp, he⟩ | ⟨p, hp, q, hq, he⟩
    · have hsort : treeSorted items :=
        treeSorted_of_names (by rw [he, buildSeconds_names]) (hs.2 p hp).1
      exact ⟨hsort, treeSorted_nodup hsort⟩
    · have hsort : treeSorted items :=
        treeSorted_of_names (by rw [he, buildCrates_names]) ((hs.2 p hp).2 q hq)
      exact ⟨hsort, treeSorted_nodup hsort⟩
  · rw [treeNodup, rootItemsFor, List.pairwise_cons]
    refine ⟨?_, treeSorted_nodup hsorted1⟩
    intro i hi heq
    have hmemname : i.name ∈ ((build_tree t).1).map TreeItem.name :=
      List.mem_map_of_mem TreeItem.name hi
    rw [build_tree_names] at hmemname
    obtain ⟨p, hp, hfst⟩ := List.mem_map.mp hmemname
    have hlen2 : i.name.length = 2 := by
      rw [← hfst]
      exact (hk p hp).1
    have heq' : strBytes "config.json" = i.name := heq
    rw [← heq'] at hlen2
    exact absurd hlen2 (by decide)

/-- Claim **C4** counterexample: for the single crate `abcd`, the root tree's
item names are `config.json` followed by `ab`, which is not sorted in
lexicographic byte order (`ab` < `config.json`), so re-sorting the root
tree's entries alphabetically is not a no-op. -/
theorem root_tree_unsorted_counterexample :
    fetch_tree [([97, 98, 99, 100], [107])] [] =
      some [([97, 98], [([99, 100], [([97, 98, 99, 100], [107])])])] ∧
    (rootItemsFor []
        [([97, 98], [([99, 100], [([97, 98, 99, 100], [107])])])]).map
        TreeItem.name =
      [strBytes "config.json", [97, 98]] ∧
    ¬ treeSorted
        (rootItemsFor []
          [([97, 98], [([99, 100], [([97, 98, 99, 100], [107])])])]) := by
  refine ⟨rfl, rfl, ?_⟩
  intro h
  have h2 := (List.chain'_cons.mp h).1
  have h3 : bytesLt (strBytes "config.json") [97, 98] = true := h2
  exact absurd h3 (by decide)

/-- Claim **C4** witness: the single crate `serde` — all first- and
second-level trees and the root-tree tail are sorted. -/
theorem index_trees_sorted_witness :
    fetch_tree [([115, 101, 114, 100, 101], [107])] [] =
      some [([115, 101],
        [([114, 100], [([115, 101, 114, 100, 101], [107])])])] ∧
    treeSorted
      (build_tree
        [([115, 101],
          [([114, 100], [([115, 101, 114, 100, 101], [107])])])]).1 :=
  ⟨rfl,
    (index_trees_sorted [([115, 101, 114, 100, 101], [107])] []
      [([115, 101], [([114, 100], [([115, 101, 114, 100, 101], [107])])])]
      rfl).2.1⟩

theorem refsOk_append : ∀ (a : List PackFileEntry) (pre b : List PackFileEntry),
    refsOk pre (a ++ b) ↔ refsOk pre a ∧ refsOk (pre ++ a) b := by
  intro a
  induction a with
  | nil =>
    intro pre b
    simp [refsOk]
  | cons e rest ih =>
    intro pre b
    simp only [List.cons_append, refsOk, List.append_eq]
    rw [ih (pre ++ [e]) b]
    rw [show (pre ++ [e]) ++ rest = pre ++ e :: rest from by simp]
    exact and_assoc.symm

theorem providedBy_mono {pre pre' : List PackFileEntry}
    (hsub : ∀ e ∈ pre, e ∈ pre') {r : List Nat} (h : providedBy pre r) :
    providedBy pre' r := by
  obtain ⟨e, he, hh⟩ := h
  exact ⟨e, hsub e he, hh⟩

theorem buildCrates_refsOk : ∀ (m : LeafMap) (pre : List PackFileEntry),
    refsOk pre (buildCrates m).2 := by
  intro m
  induction m with
  | nil =>
    intro pre
    trivial
  | cons p rest ih =>
    intro pre
    obtain ⟨n, f⟩ := p
    exact ⟨fun r hr => absurd hr (by simp [entryRefs]), ih _⟩

theorem buildCrates_items_provided : ∀ (m : LeafMap),
    ∀ item ∈ (buildCrates m).1, ∃ e ∈ (buildCrates m).2,
      PackFileEntry.hash e = item.hash := by
  intro m
  induction m with
  | nil =>
    intro item hitem
    simp [buildCrates] at hitem
  | cons p rest ih =>
    intro item hitem
    obtain ⟨n, f⟩ := p
    simp only [buildCrates, List.mem_cons] at hitem
    rcases hitem with hitem | hitem
    · exact ⟨PackFileEntry.blob f, by simp [buildCrates], by rw [hitem]⟩
    · obtain ⟨e, he, heh⟩ := ih item hitem
      exact ⟨e, by simp [buildCrates, he], heh⟩

theorem buildSeconds_refsOk : ∀ (inner : InnerMap) (pre : List PackFileEntry),
    refsOk pre (buildSeconds inner).2 := by
  intro inner
  induction inner with
  | nil =>
    intro pre
    trivial
  | cons p rest ih =>
    intro pre
    obtain ⟨dir, crates⟩ := p
    simp only [buildSeconds]
    rw [refsOk_append]
    refine ⟨buildCrates_refsOk crates pre, ?_, ih _⟩
    intro r hr
    simp only [entryRefs] at hr
    obtain ⟨item, hitem, hh⟩ := List.mem_map.mp hr
    obtain ⟨e, he, heh⟩ := buildCrates_items_provided crates item hitem
    exact ⟨e, by simp [he], heh.trans hh⟩

theorem buildSeconds_items_provided : ∀ (inner : InnerMap),
    ∀ item ∈ (buildSeconds inner).1, ∃ e ∈ (buildSeconds inner).2,
      PackFileEntry.hash e = item.hash := by
  intro inner
  induction inner with
  | nil =>
    intro item hitem
    simp [buildSeconds] at hitem
  | cons p rest ih =>
    intro item hitem
    obtain ⟨dir, crates⟩ := p
    simp only [buildSeconds, List.mem_cons] at hitem
    rcases hitem with hitem | hitem
    · refine ⟨PackFileEntry.tree (buildCrates crates).1, ?_, by rw [hitem]⟩
      simp [buildSeconds]
    · obtain ⟨e, he, heh⟩ := ih item hitem
      refine ⟨e, ?_, heh⟩
      simp [buildSeconds, he]

theorem build_tree_refsOk : ∀ (t : OuterTree) (pre : List PackFileEntry),
    refsOk pre (build_tree t).2 := by
  intro t
  induction t with
  | nil =>
    intro pre
    trivial
  | cons p rest ih =>
    intro pre
    obtain ⟨dir, seconds⟩ := p
    simp only [build_tree]
    rw [refsOk_append]
    refine ⟨buildSeconds_refsOk seconds pre, ?_, ih _⟩
    intro r hr
    simp only [entryRefs] at hr
    obtain ⟨item, hitem, hh⟩ := List.mem_map.mp hr
    obtain ⟨e, he, heh⟩ := buildSeconds_items_provided seconds item hitem
    exact ⟨e, by simp [he], heh.trans hh⟩

theorem build_tree_items_provided : ∀ (t : OuterTree),
    ∀ item ∈ (build_tree t).1, ∃ e ∈ (build_tree t).2,
      PackFileEntry.hash e = item.hash := by
  intro t
  induction t with
  | nil =>
    intro item hitem
    simp [build_tree] at hitem
  | cons p rest ih =>
    intro item hitem
    obtain ⟨dir, seconds⟩ := p
    simp only [build_tree, List.mem_cons] at hitem
    rcases hitem with hitem | hitem
    · refine ⟨PackFileEntry.tree (buildSeconds seconds).1, ?_, by rw [hitem]⟩
      simp [build_tree]
    · obtain ⟨e, he, heh⟩ := ih item hitem
      refine ⟨e, ?_, heh⟩
      simp [build_tree, he]

theorem makeEntries_refsOk (cfg : List Nat) (t : OuterTree) :
    refsOk [] (makeEntries cfg t) := by
  refine ⟨fun r hr => absurd hr (by simp [entryRefs]), ?_⟩
  simp only [List.append_eq]
  rw [refsOk_append]
  refine ⟨build_tree_refsOk t _, ?_, ?_, trivial⟩
  · intro r hr
    simp only [rootTreeFor, entryRefs] at hr
    obtain ⟨item, hitem, hh⟩ := List.mem_map.mp hr
    rw [rootItemsFor, List.mem_cons] at hitem
    rcases hitem with hitem | hitem
    · refine ⟨PackFileEntry.blob cfg, by simp, ?_⟩
      rw [hitem] at hh
      exact hh
    · obtain ⟨e, he, heh⟩ := build_tree_items_provided t item hitem
      exact ⟨e, by simp [he], heh.trans hh⟩
  · intro r hr
    simp only [commitEntryFor, entryRefs, List.mem_singleton] at hr
    refine ⟨rootTreeFor cfg t, by simp, ?_⟩
    rw [← hr]

theorem refsOk_take : ∀ (l pre : List PackFileEntry), refsOk pre l →
    ∀ i, ∀ hi : i < l.length, ∀ r ∈ entryRefs (l.get ⟨i, hi⟩),
      providedBy (pre ++ l.take i) r := by
  intro l
  induction l with
  | nil =>
    intro pre _ i hi
    exact absurd hi (Nat.not_lt_zero i)
  | cons e rest ih =>
    intro pre h i hi r hr
    obtain ⟨h1, h2⟩ := h
    cases i with
    | zero =>
      simp only [List.take_zero, List.append_nil]
      exact h1 r hr
    | succ j =>
      have hj : j < rest.length := by
        simp only [List.length_cons] at hi
        omega
      have hres := ih (pre ++ [e]) h2 j hj r hr
      rwa [show (pre ++ [e]) ++ rest.take j = pre ++ (e :: rest).take (j + 1)
        from by simp] at hres

theorem refsBefore_of_refsOk {l : List PackFileEntry} (h : refsOk [] l) :
    refsBefore l := by
  intro i hi r hr
  have hp := refsOk_take l [] h i hi r hr
  rw [List.nil_append] at hp
  obtain ⟨e, he, hh⟩ := hp
  obtain ⟨⟨j, hj⟩, hget⟩ := List.get_of_mem he
  have hjlen : j < l.length ∧ j < i := by
    have hj' := hj
    rw [List.length_take] at hj'
    omega
  refine ⟨j, hjlen.1, hjlen.2, ?_⟩
  have hgets : (l.take i).get ⟨j, hj⟩ = l.get ⟨j, hjlen.1⟩ := by
    simp [List.get_eq_getElem, List.getElem_take]
  rw [← hgets, hget]
  exact hh

theorem makeEntries_getLast (cfg : List Nat) (t : OuterTree) :
    (makeEntries cfg t).getLast? = some (commitEntryFor cfg t) := by
  have h : makeEntries cfg t =
      (PackFileEntry.blob cfg :: ((build_tree t).2 ++ [rootTreeFor cfg t])) ++
        [commitEntryFor cfg t] := by
    simp [makeEntries]
  rw [h, List.getLast?_concat]

/-- Claim **C5**: in the pack-file entry list produced for a fetch, every
object referenced by a Tree entry (via the hash stored in the tree item)
appears in the list strictly before that Tree — each crate blob precedes
its second-level tree, each second-level tree its first-level tree, the
`config.json` blob and the first-level trees the root tree — and the
commit, which references the root tree's hash, is the last entry. -/
theorem pack_entries_dependency_order (cfg : List Nat) (t : OuterTree) :
    refsBefore (makeEntries cfg t) ∧
    (makeEntries cfg t).getLast? = some (commitEntryFor cfg t) ∧
    entryRefs (commitEntryFor cfg t) = [(rootTreeFor cfg t).hash] :=
  ⟨refsBefore_of_refsOk (makeEntries_refsOk cfg t),
    makeEntries_getLast cfg t, rfl⟩

end Chartered
